import Mathlib

/-!
Shallow embedding of the intent-vocabulary and responder pipeline of the
`chatbot` repository (modules `chatbot/patterns.py` and `chatbot/brain.py`).

Conventions of the embedding:
* the mutable `Patterns._patterns` dictionary is the state type `PState`
  (an association list from tag to its record, plus the global stem list);
* methods that mutate `self._patterns` return a new `PState`; methods that
  can raise a Python exception return an `Option`/pairing with `Option PyErr`;
* the NLTK stemmer and the stop-word corpus are external inputs, so they are
  parameters (`stemf : String → String`, `stop : List String`);
* Python string comparison (used by `sorted`) is code-point lexicographic
  order, embedded below as the executable relation `SLe`;
* the classifier (`keras` model) is external: its `predict` output is a
  parameter, modelled over `ℚ`;
* `random.shuffle` and `random.choice` are modelled by a shuffle-function
  parameter (assumed to permute) and by a natural-number random draw.
-/

namespace Chatbot

/-! ### Python string comparison (code-point lexicographic order) -/

/-- Lexicographic comparison of character lists by code point, the order
Python's `sorted` uses on strings. -/
def lexLe : List Char → List Char → Bool
  | [], _ => true
  | _ :: _, [] => false
  | a :: as, b :: bs =>
    if a.toNat < b.toNat then true
    else if b.toNat < a.toNat then false
    else lexLe as bs

/-- The order on strings induced by `lexLe` on their character data. -/
def SLe (a b : String) : Prop := lexLe a.data b.data = true

instance : DecidableRel SLe := fun a b => instDecidableEqBool (lexLe a.data b.data) true

theorem lexLe_total : ∀ a b : List Char, lexLe a b = true ∨ lexLe b a = true := by
  intro a
  induction a with
  | nil => intro b; left; rfl
  | cons x xs ih =>
    intro b
    cases b with
    | nil => right; rfl
    | cons y ys =>
      simp only [lexLe]
      rcases Nat.lt_trichotomy x.toNat y.toNat with h | h | h
      · left; simp [h]
      · have h2 : ¬ x.toNat < y.toNat := by omega
        have h3 : ¬ y.toNat < x.toNat := by omega
        rcases ih ys with h4 | h4
        · left; simp [h2, h3, h4]
        · right; simp [h2, h3, h4]
      · right; simp [h]

theorem lexLe_antisymm : ∀ a b : List Char,
    lexLe a b = true → lexLe b a = true → a = b := by
  intro a
  induction a with
  | nil =>
    intro b _ hba
    cases b with
    | nil => rfl
    | cons y ys => simp [lexLe] at hba
  | cons x xs ih =>
    intro b hab hba
    cases b with
    | nil => simp [lexLe] at hab
    | cons y ys =>
      simp only [lexLe] at hab hba
      rcases Nat.lt_trichotomy x.toNat y.toNat with h | h | h
      · have h3 : ¬ y.toNat < x.toNat := by omega
        simp [h, h3] at hba
      · have h2 : ¬ x.toNat < y.toNat := by omega
        have h3 : ¬ y.toNat < x.toNat := by omega
        simp only [h2, h3, if_false, if_neg] at hab hba
        have hxy : x = y := Char.eq_of_val_eq (by
          apply UInt32.eq_of_val_eq
          exact Fin.ext (by simpa [Char.toNat] using congrArg id (by omega : x.toNat = y.toNat)))
        subst hxy
        rw [ih ys hab hba]
      · have h2 : ¬ x.toNat < y.toNat := by omega
        simp [h, h2] at hab

theorem lexLe_trans : ∀ a b c : List Char,
    lexLe a b = true → lexLe b c = true → lexLe a c = true := by
  intro a
  induction a with
  | nil => intro b c _ _; rfl
  | cons x xs ih =>
    intro b c hab hbc
    cases b with
    | nil => simp [lexLe] at hab
    | cons y ys =>
      cases c with
      | nil => simp [lexLe] at hbc
      | cons z zs =>
        simp only [lexLe] at hab hbc ⊢
        rcases Nat.lt_trichotomy x.toNat y.toNat with h1 | h1 | h1 <;>
          rcases Nat.lt_trichotomy y.toNat z.toNat with h2 | h2 | h2
        all_goals first
          | (have hxz : x.toNat < z.toNat := by omega
             simp [hxz])
          | (have h3 : ¬ x.toNat < y.toNat := by omega
             have h4 : ¬ y.toNat < x.toNat := by omega
             simp [h3, h4] at hab
             have h5 : ¬ y.toNat < z.toNat := by omega
             have h6 : ¬ z.toNat < y.toNat := by omega
             simp [h5, h6] at hbc
             have h7 : ¬ x.toNat < z.toNat := by omega
             have h8 : ¬ z.toNat < x.toNat := by omega
             simp [h7, h8]
             exact ih ys zs hab hbc)
          | (exfalso
             have h3 : ¬ x.toNat < y.toNat := by omega
             have h4 : y.toNat < x.toNat := by omega
             simp [h3, h4] at hab)
          | (exfalso
             have h5 : ¬ y.toNat < z.toNat := by omega
             have h6 : z.toNat < y.toNat := by omega
             simp [h5, h6] at hbc)

instance : IsTotal String SLe := ⟨fun a b => lexLe_total a.data b.data⟩

instance : IsTrans String SLe := ⟨fun a b c => lexLe_trans a.data b.data c.data⟩

instance : IsAntisymm String SLe :=
  ⟨fun a b hab hba => by
    cases a with
    | mk da =>
      cases b with
      | mk db => exact congrArg String.mk (lexLe_antisymm da db hab hba)⟩

instance : IsRefl String SLe :=
  ⟨fun a => by
    rcases lexLe_total a.data a.data with h | h <;> exact h⟩

/-- Model of Python's `sorted(set(l))` on strings: deduplicate, then sort
by code-point order (result: the sorted list of the distinct elements). -/
def pysorted (l : List String) : List String := List.insertionSort SLe l.dedup

/-! ### Tokenizer and stemming (`Patterns._stemming`) -/

/-- A word character for the `\w+` tokenizer regex (ASCII fragment). -/
def isWordChar (c : Char) : Bool := c.isAlphanum || c == '_'

/-- Accumulate maximal runs of word characters; `cur` holds the current run
in reverse. -/
def tokenizeAux : List Char → List Char → List (List Char)
  | [], cur => if cur = [] then [] else [cur.reverse]
  | c :: rest, cur =>
    if isWordChar c then tokenizeAux rest (c :: cur)
    else if cur = [] then tokenizeAux rest []
    else cur.reverse :: tokenizeAux rest []

/-- Model of `nltk.RegexpTokenizer(r"\w+").tokenize`: the maximal runs of
word characters of the input, in order. -/
def tokenize (s : String) : List String :=
  (tokenizeAux s.data []).map (fun cs => String.mk cs)

/-- Lower-casing of one character (ASCII fragment of `str.lower`). -/
def lowerChar (c : Char) : Char :=
  if 65 ≤ c.toNat ∧ c.toNat ≤ 90 then Char.ofNat (c.toNat + 32) else c

/-- Model of Python's `str.lower` (ASCII fragment). -/
def pyLower (s : String) : String := String.mk (s.data.map lowerChar)

/-- Model of `Patterns._stemming`: tokenize, drop the tokens that are in the
stop list (checked on the original token), lower-case and stem the rest. -/
def stemming (stemf : String → String) (stop : List String) (pattern : String) :
    List String :=
  ((tokenize pattern).filter (fun w => decide (¬ w ∈ stop))).map
    (fun w => stemf (pyLower w))

/-! ### The `_patterns` state -/

/-- The value stored under one tag: its stem list and its answer list. -/
structure TagData where
  stems : List String
  answers : List String
  deriving DecidableEq

/-- The `Patterns._patterns` dictionary: the `tags` mapping (as an
association list in insertion order, keys unique in every reachable state)
and the global stem list. -/
structure PState where
  tags : List (String × TagData)
  stems : List String
  deriving DecidableEq

/-- The fresh state built by `Patterns.__init__` without a pickle file. -/
def emptyState : PState := ⟨[], []⟩

/-- First association for a key, the dictionary lookup. -/
def lookupTag : List (String × TagData) → String → Option TagData
  | [], _ => none
  | p :: ps, tag => if p.1 = tag then some p.2 else lookupTag ps tag

/-- Update the value stored under a key in place (dictionary item update;
key order is preserved). -/
def updateTag (st : PState) (tag : String) (f : TagData → TagData) : PState :=
  { st with tags := st.tags.map (fun p => if p.1 = tag then (p.1, f p.2) else p) }

/-- Model of `Patterns._get_all_tags`: the sorted list of keys. -/
def getTags (st : PState) : List String :=
  List.insertionSort SLe (st.tags.map Prod.fst)

/-- Model of `Patterns._get_stems` for a present tag (callers only use it on
keys of the mapping, where the lookup succeeds). -/
def getStems (st : PState) (tag : String) : List String :=
  ((lookupTag st.tags tag).map TagData.stems).getD []

/-- Model of `Patterns._get_answers`: `none` models the `AttributeError`
raised when the tag is absent. -/
def getAnswers (st : PState) (tag : String) : Option (List String) :=
  (lookupTag st.tags tag).map TagData.answers

/-! ### Catalog ingestion (`_parse_intents_file`, `_set_intent`, `_set_stems`) -/

/-- A Python exception escaping the ingestion code. -/
inductive PyErr where
  | keyError (field : String)
  deriving DecidableEq

/-- One record of the `intents` array; `none` fields model absent dictionary
keys. `context` is read by no code path but participates in dictionary
emptiness. -/
structure IntentRecord where
  tag : Option String
  patterns : Option (List String)
  responses : Option (List String)
  context : Option (List String)
  deriving DecidableEq

/-- A record whose dictionary is empty is skipped by the `if intent:` guard
of `_parse_intents_file`. -/
def isEmptyDict (r : IntentRecord) : Bool :=
  r.tag.isNone && r.patterns.isNone && r.responses.isNone && r.context.isNone

/-- Model of `Patterns._set_answers`: append the record's responses to the
tag's answer list. -/
def set_answers (st : PState) (tag : String) (answers : List String) : PState :=
  updateTag st tag (fun td => ⟨td.stems, td.answers ++ answers⟩)

/-- Append a word to the global stem list when absent (second half of the
inner loop of `Patterns._set_stems`). -/
def add_global_stem (st : PState) (w : String) : PState :=
  if w ∈ st.stems then st else { st with stems := st.stems ++ [w] }

/-- One iteration of the inner loop of `Patterns._set_stems`: append the word
to the tag's stem list when absent there, and to the global stem list when
absent there (the Python lists are aliases, so each check sees prior
appends). -/
def add_stem_word (st : PState) (tag w : String) : PState :=
  add_global_stem
    (if w ∈ getStems st tag then st
     else updateTag st tag (fun td => ⟨td.stems ++ [w], td.answers⟩)) w

/-- Model of `Patterns._set_stems`: fold the nested loop over the stemmed
patterns. -/
def set_stems (st : PState) (tag : String) (stems : List (List String)) : PState :=
  stems.foldl (fun s l => l.foldl (fun s2 w => add_stem_word s2 tag w) s) st

/-- Model of `Patterns._set_intent`. Missing dictionary fields raise
`KeyError` at the point of access, so the state mutated up to that point is
kept in the error case. -/
def set_intent (stemf : String → String) (stop : List String)
    (st : PState) (r : IntentRecord) : PState × Option PyErr :=
  match r.tag with
  | none => (st, some (PyErr.keyError "tag"))
  | some tag =>
    let st1 :=
      if tag ∈ getTags st then st
      else { st with tags := st.tags ++ [(tag, ⟨[], []⟩)] }
    match r.responses with
    | none => (st1, some (PyErr.keyError "responses"))
    | some answers =>
      let st2 := set_answers st1 tag answers
      match r.patterns with
      | none => (st2, some (PyErr.keyError "patterns"))
      | some pats =>
        (set_stems st2 tag (pats.map (stemming stemf stop)), none)

/-- Model of the loop of `Patterns._parse_intents_file`: process records in
order, skipping empty dictionaries; an exception aborts the loop, keeping
the state built so far. -/
def parse_intents (stemf : String → String) (stop : List String)
    (st : PState) (cat : List IntentRecord) : PState × Option PyErr :=
  match cat with
  | [] => (st, none)
  | r :: rs =>
    if isEmptyDict r then parse_intents stemf stop st rs
    else
      match set_intent stemf stop st r with
      | (st1, none) => parse_intents stemf stop st1 rs
      | (st1, some e) => (st1, some e)

/-- Model of `Patterns._sort_all_stems`: replace the global stem list and
every tag's stem list by its sorted deduplicated form. -/
def sort_all_stems (st : PState) : PState :=
  { tags := st.tags.map (fun p => (p.1, ⟨pysorted p.2.stems, p.2.answers⟩)),
    stems := pysorted st.stems }

/-! ### Training data (`Patterns._make_training_data`) -/

/-- Model of Python's `list.index`: position of the first occurrence; when
the element is absent (the `ValueError` case, unreachable for the uses
below) the list's length is returned. -/
def pyIndex {α : Type} [DecidableEq α] : List α → α → Nat
  | [], _ => 0
  | b :: bs, a => if b = a then 0 else pyIndex bs a + 1

/-- A one-hot boolean vector of length `n`, true exactly at position `i`
(the shape the specification ascribes to the generated rows). -/
def onehot (n i : Nat) : List Bool :=
  (List.range n).map (fun j => decide (j = i))

/-- The training rows built by the loop of `Patterns._make_training_data`,
before shuffling: one row per tag (in sorted order) and per stem of that
tag, a one-position feature vector paired with a one-position label
vector. -/
def make_rows (st : PState) : List (List Bool × List Bool) :=
  (getTags st).flatMap (fun tag =>
    (getStems st tag).map (fun stem =>
      ((List.replicate st.stems.length false).set (pyIndex st.stems stem) true,
       (List.replicate (getTags st).length false).set (pyIndex (getTags st) tag) true)))

/-- Model of `Patterns._make_training_data`: shuffle the rows, then split
into the feature list and the label list. `none` models the `IndexError`
numpy raises on `[:,0]` when the row list is empty. -/
def make_training_data
    (shuffle : List (List Bool × List Bool) → List (List Bool × List Bool))
    (st : PState) : Option (List (List Bool) × List (List Bool)) :=
  let rows := shuffle (make_rows st)
  if rows = [] then none
  else some (rows.map Prod.fst, rows.map Prod.snd)

/-! ### Inference (`convert_sentence`, `choose_answer`, `_get_tag_by_index`,
`ChatBotBrain._predict`, `ChatBotBrain.answer`) -/

/-- Model of `Patterns.convert_sentence`: one boolean per global stem,
true when that stem occurs among the sentence's stemmed tokens. -/
def convert_sentence (stemf : String → String) (stop : List String)
    (st : PState) (sentence : String) : List Bool :=
  st.stems.map (fun w => decide (w ∈ stemming stemf stop sentence))

/-- Model of `Patterns._get_tag_by_index`: a negative index short-circuits
to `"noanswer"`; a non-negative index subscripts the sorted tag list
(`none` models the `IndexError` past the end). -/
def get_tag_by_index (st : PState) (index : Int) : Option String :=
  if 0 ≤ index then (getTags st)[index.toNat]? else some "noanswer"

/-- Model of `Patterns.choose_answer`: resolve the index to a tag, then pick
the answer at a random position. `none` models the exceptions: `IndexError`
from the tag subscript, `AttributeError` from a tag absent from the mapping,
and `IndexError` from `random.choice` on an empty answer list. -/
def choose_answer (st : PState) (rand : Nat) (index : Int) : Option String :=
  match get_tag_by_index st index with
  | none => none
  | some tag =>
    match getAnswers st tag with
    | none => none
    | some answers => answers[rand % answers.length]?

/-- Model of Python's `max` on a list of probabilities: keep the current
maximum, replacing it only on strictly greater elements (so ties keep the
earlier value); `none` models the `ValueError` on an empty list. -/
def pymax : List ℚ → Option ℚ
  | [] => none
  | x :: xs => some (xs.foldl (fun m y => if m < y then y else m) x)

/-- Model of `ChatBotBrain._predict` on the classifier's output
distribution: position of the maximum if it strictly exceeds 9/10,
otherwise the sentinel -1. -/
def predict (results : List ℚ) : Option Int :=
  match pymax results with
  | none => none
  | some m =>
    let index := pyIndex results m
    match results[index]? with
    | none => none
    | some v => if 9 / 10 < v then some (Int.ofNat index) else some (-1)

/-- Method-call form of `Patterns.convert_sentence`: result paired with the
state of `self._patterns` after the call. -/
def convert_sentence_call (stemf : String → String) (stop : List String)
    (st : PState) (sentence : String) : List Bool × PState :=
  (convert_sentence stemf stop st sentence, st)

/-- Method-call form of `Patterns._get_tag_by_index`. -/
def get_tag_by_index_call (st : PState) (index : Int) : Option String × PState :=
  (get_tag_by_index st index, st)

/-- Method-call form of `Patterns.choose_answer`. -/
def choose_answer_call (st : PState) (rand : Nat) (index : Int) :
    Option String × PState :=
  (choose_answer st rand index, st)

/-- Method-call form of `ChatBotBrain._which_intent`; the external
classifier is the `predictor` parameter. -/
def which_intent_call (predictor : List Bool → List ℚ)
    (stemf : String → String) (stop : List String)
    (st : PState) (sentence : String) : Option Int × PState :=
  let r := convert_sentence_call stemf stop st sentence
  (predict (predictor r.1), r.2)

/-- Method-call form of `ChatBotBrain.answer`: predict the intent of the
sentence, then choose an answer for it. -/
def answer_call (predictor : List Bool → List ℚ)
    (stemf : String → String) (stop : List String)
    (st : PState) (rand : Nat) (sentence : String) : Option String × PState :=
  let r := which_intent_call predictor stemf stop st sentence
  match r.1 with
  | none => (none, r.2)
  | some index => choose_answer_call r.2 rand index

/-- Definition following the specification's words for `_stemming` (claim
C6): lower-case each token first, then discard the tokens whose (lowered)
form is a stop word, then stem. -/
def stemmingSpec (stemf : String → String) (stop : List String)
    (pattern : String) : List String :=
  (((tokenize pattern).map pyLower).filter (fun w => decide (¬ w ∈ stop))).map stemf

/-! ### Helper lemmas -/

theorem pyIndex_lt_length {α : Type} [DecidableEq α] {l : List α} {a : α}
    (h : a ∈ l) : pyIndex l a < l.length := by
  induction l with
  | nil => cases h
  | cons b bs ih =>
    by_cases hb : b = a
    · simp [pyIndex, hb]
    · rcases List.mem_cons.mp h with h1 | h1
      · exact absurd h1.symm hb
      · simpa [pyIndex, hb] using ih h1

theorem get_pyIndex {α : Type} [DecidableEq α] {l : List α} {a : α}
    (h : a ∈ l) : l.get ⟨pyIndex l a, pyIndex_lt_length h⟩ = a := by
  induction l with
  | nil => cases h
  | cons b bs ih =>
    by_cases hb : b = a
    · simp [pyIndex, hb]
    · rcases List.mem_cons.mp h with h1 | h1
      · exact absurd h1.symm hb
      · simp only [pyIndex, hb, if_false]
        simpa using ih h1

theorem get_lt_pyIndex {α : Type} [DecidableEq α] {l : List α} {a : α}
    {j : Nat} (hj : j < l.length) (hlt : j < pyIndex l a) :
    l.get ⟨j, hj⟩ ≠ a := by
  induction l generalizing j with
  | nil => cases hj
  | cons b bs ih =>
    by_cases hb : b = a
    · simp [pyIndex, hb] at hlt
    · cases j with
      | zero => simpa using hb
      | succ k =>
        simp only [pyIndex, hb, if_false] at hlt
        simpa using ih (by simpa using hj) (by omega)

theorem mem_pysorted {a : String} {l : List String} :
    a ∈ pysorted l ↔ a ∈ l := by
  unfold pysorted
  rw [(List.perm_insertionSort SLe l.dedup).mem_iff]
  exact List.mem_dedup

theorem sorted_pysorted (l : List String) : List.Sorted SLe (pysorted l) :=
  List.sorted_insertionSort SLe l.dedup

theorem nodup_pysorted (l : List String) : (pysorted l).Nodup :=
  (List.perm_insertionSort SLe l.dedup).nodup_iff.mpr l.nodup_dedup

theorem sorted_nodup_eq_of_mem_iff :
    ∀ {l1 l2 : List String}, List.Sorted SLe l1 → l1.Nodup →
      List.Sorted SLe l2 → l2.Nodup → (∀ a, a ∈ l1 ↔ a ∈ l2) → l1 = l2 := by
  intro l1
  induction l1 with
  | nil =>
    intro l2 _ _ _ _ hm
    cases l2 with
    | nil => rfl
    | cons b bs => exact absurd ((hm b).mpr (List.mem_cons_self b bs)) (by simp)
  | cons a as ih =>
    intro l2 hs1 hn1 hs2 hn2 hm
    cases l2 with
    | nil => exact absurd ((hm a).mp (List.mem_cons_self a as)) (by simp)
    | cons b bs =>
      rw [List.sorted_cons] at hs1 hs2
      rw [List.nodup_cons] at hn1 hn2
      have hab : a = b := by
        rcases List.mem_cons.mp ((hm a).mp (List.mem_cons_self a as)) with h1 | h1
        · exact h1
        · rcases List.mem_cons.mp ((hm b).mpr (List.mem_cons_self b bs)) with h2 | h2
          · exact h2.symm
          · exact antisymm (hs1.1 b h2) (hs2.1 a h1)
      subst hab
      have hm2 : ∀ x, x ∈ as ↔ x ∈ bs := by
        intro x
        constructor
        · intro hx
          rcases List.mem_cons.mp ((hm x).mp (List.mem_cons_of_mem a hx)) with h1 | h1
          · exact absurd (h1 ▸ hx) hn1.1
          · exact h1
        · intro hx
          rcases List.mem_cons.mp ((hm x).mpr (List.mem_cons_of_mem a hx)) with h1 | h1
          · exact absurd (h1 ▸ hx) hn2.1
          · exact h1
      rw [ih hs1.2 hn1.2 hs2.2 hn2.2 hm2]

theorem filter_map_eq_filterMap {α β : Type} (p : α → Bool) (f : α → β) :
    ∀ l : List α, (l.filter p).map f =
      l.filterMap (fun w => if p w then some (f w) else none) := by
  intro l
  induction l with
  | nil => rfl
  | cons x xs ih =>
    by_cases hx : p x
    · simp [List.filter_cons, List.filterMap_cons, hx, ih]
    · simp [List.filter_cons, List.filterMap_cons, hx, ih]

theorem tokenizeAux_runs :
    ∀ (cs cur : List Char), (∀ c ∈ cur, isWordChar c = true) →
      ∀ t ∈ tokenizeAux cs cur, t ≠ [] ∧ ∀ c ∈ t, isWordChar c = true := by
  intro cs
  induction cs with
  | nil =>
    intro cur hcur t ht
    rw [tokenizeAux] at ht
    by_cases hc : cur = []
    · rw [if_pos hc] at ht
      cases ht
    · rw [if_neg hc] at ht
      have ht2 := List.mem_singleton.mp ht
      subst ht2
      refine ⟨by simpa using hc, ?_⟩
      intro c hc2
      exact hcur c (List.mem_reverse.mp hc2)
  | cons c rest ih =>
    intro cur hcur t ht
    rw [tokenizeAux] at ht
    by_cases hw : isWordChar c
    · rw [if_pos hw] at ht
      refine ih (c :: cur) ?_ t ht
      intro x hx
      rcases List.mem_cons.mp hx with h1 | h1
      · exact h1 ▸ hw
      · exact hcur x h1
    · rw [if_neg hw] at ht
      by_cases hc : cur = []
      · rw [if_pos hc] at ht
        exact ih [] (by simp) t ht
      · rw [if_neg hc] at ht
        rcases List.mem_cons.mp ht with h1 | h1
        · subst h1
          refine ⟨by simpa using hc, ?_⟩
          intro x hx
          exact hcur x (List.mem_reverse.mp hx)
        · exact ih [] (by simp) t h1

theorem tokenize_runs (s : String) :
    ∀ t ∈ tokenize s, t ≠ "" ∧ ∀ c ∈ t.data, isWordChar c = true := by
  intro t ht
  rcases List.mem_map.mp ht with ⟨cs, hcs, rfl⟩
  obtain ⟨hne, hall⟩ := tokenizeAux_runs s.data [] (by simp) cs hcs
  refine ⟨?_, hall⟩
  intro h
  exact hne (by simpa using congrArg String.data h)

/-! ### Claim C4: the unresolved sentinel resolves to `noanswer` -/

/-- C4: for every vocabulary state, whatever tags the catalog defined,
`_get_tag_by_index` maps the unresolved sentinel -1 to the tag
`"noanswer"`. -/
theorem get_tag_by_index_unresolved (st : PState) :
    get_tag_by_index st (-1) = some "noanswer" := by
  rw [get_tag_by_index, if_neg]
  norm_num

/-! ### Claim C6: stemming pipeline (corrected: the stop-word test is
case-sensitive, applied before lower-casing) -/

/-- C6 counterexample: with the stop word `"le"` (the NLTK French stop
list is lower-case), the capitalized token `"Le"` is kept by the code,
while the specification's description (stop-word test on the lower-cased
token) discards it. -/
theorem stemming_capitalized_stopword_cex :
    stemming id ["le"] "Le" = ["le"] ∧ stemmingSpec id ["le"] "Le" = [] := by
  decide

/-- C6 amended: `_stemming` tokenizes its input into maximal nonempty runs
of word characters, discards every token that is literally (case
sensitively, before lower-casing) a member of the stop list, and
lower-cases then stems each remaining token. -/
theorem stemming_spec (stemf : String → String) (stop : List String)
    (pattern : String) :
    stemming stemf stop pattern =
      (tokenize pattern).filterMap
        (fun w => if decide (¬ w ∈ stop) then some (stemf (pyLower w)) else none) ∧
    ∀ t ∈ tokenize pattern, t ≠ "" ∧ ∀ c ∈ t.data, isWordChar c = true :=
  ⟨filter_map_eq_filterMap _ _ _, tokenize_runs pattern⟩

/-- Witness for `stemming_spec` at a concrete sentence. -/
theorem stemming_spec_witness :
    "Hello" ∈ tokenize "Hello World !" ∧ "Hello" ≠ "" :=
  ⟨by decide, ((stemming_spec id [] "Hello World !").2 "Hello" (by decide)).1⟩

/-! ### Claim C8: `choose_answer` returns a member of the answer list -/

/-- C8: when the index resolves to a tag present in the vocabulary, a
nonempty answer list yields one of its members, and an empty answer list
fails (`random.choice` raises on an empty sequence). -/
theorem choose_answer_mem (st : PState) (rand : Nat) (index : Int)
    (tag : String) (answers : List String)
    (htag : get_tag_by_index st index = some tag)
    (hans : getAnswers st tag = some answers) :
    (answers ≠ [] → ∃ a, choose_answer st rand index = some a ∧ a ∈ answers) ∧
    (answers = [] → choose_answer st rand index = none) := by
  constructor
  · intro hne
    have hlen : 0 < answers.length := List.length_pos.mpr hne
    have hlt : rand % answers.length < answers.length := Nat.mod_lt _ hlen
    refine ⟨answers[rand % answers.length], ?_, List.getElem_mem hlt⟩
    simp only [choose_answer, htag, hans]
    exact List.getElem?_eq_getElem hlt
  · intro he
    subst he
    simp [choose_answer, htag, hans]

/-- Witness for `choose_answer_mem` on a concrete vocabulary. -/
theorem choose_answer_mem_witness :
    ∃ a, choose_answer ⟨[("noanswer", ⟨[], ["n1", "n2"]⟩)], []⟩ 3 (-1) = some a ∧
      a ∈ ["n1", "n2"] :=
  (choose_answer_mem ⟨[("noanswer", ⟨[], ["n1", "n2"]⟩)], []⟩ 3 (-1) "noanswer"
    ["n1", "n2"] (by decide) (by decide)).1 (by decide)

/-! ### Claim C9: inference does not mutate the vocabulary -/

/-- C9: once the vocabulary is handed to the responder, none of the
inference operations changes the `_patterns` state: each method-call form
returns the state it was given. -/
theorem inference_preserves_state (predictor : List Bool → List ℚ)
    (stemf : String → String) (stop : List String)
    (st : PState) (rand : Nat) (index : Int) (sentence : String) :
    (convert_sentence_call stemf stop st sentence).2 = st ∧
    (get_tag_by_index_call st index).2 = st ∧
    (choose_answer_call st rand index).2 = st ∧
    (which_intent_call predictor stemf stop st sentence).2 = st ∧
    (answer_call predictor stemf stop st rand sentence).2 = st := by
  refine ⟨rfl, rfl, rfl, rfl, ?_⟩
  rw [answer_call]
  cases h : (which_intent_call predictor stemf stop st sentence).1 <;>
    simp only [h] <;> rfl

/-! ### Claim C10: negative indices fall back to `noanswer`, overlong
indices are out of bounds -/

/-- C10: every strictly negative index (not only -1) resolves to
`"noanswer"`, for tag lookup and answer choice alike; a non-negative index
at or past the number of tags has no result (an `IndexError`, with no
fallback). -/
theorem get_tag_by_index_bounds (st : PState) (rand : Nat) :
    (∀ index : Int, index < 0 →
        get_tag_by_index st index = some "noanswer" ∧
        choose_answer st rand index = choose_answer st rand (-1)) ∧
    (∀ index : Int, 0 ≤ index → (getTags st).length ≤ index.toNat →
        get_tag_by_index st index = none ∧ choose_answer st rand index = none) := by
  constructor
  · intro index hneg
    have h1 : get_tag_by_index st index = some "noanswer" := by
      rw [get_tag_by_index, if_neg (by omega)]
    have h2 : get_tag_by_index st (-1) = some "noanswer" := by
      rw [get_tag_by_index, if_neg (by omega)]
    exact ⟨h1, by rw [choose_answer, choose_answer, h1, h2]⟩
  · intro index hpos hlen
    have h1 : get_tag_by_index st index = none := by
      rw [get_tag_by_index, if_pos hpos]
      exact List.getElem?_eq_none hlen
    exact ⟨h1, by rw [choose_answer, h1]⟩

/-- Witness for `get_tag_by_index_bounds` on the empty vocabulary. -/
theorem get_tag_by_index_bounds_witness :
    get_tag_by_index emptyState (-2) = some "noanswer" ∧
    get_tag_by_index emptyState 0 = none :=
  ⟨((get_tag_by_index_bounds emptyState 0).1 (-2) (by norm_num)).1,
   ((get_tag_by_index_bounds emptyState 0).2 0 (by norm_num) (by decide)).1⟩

/-! ### Claim C3: the prediction threshold and argmax policy -/

theorem pymax_foldl_spec (xs : List ℚ) : ∀ m : ℚ,
    (xs.foldl (fun a y => if a < y then y else a) m = m ∨
      xs.foldl (fun a y => if a < y then y else a) m ∈ xs) ∧
    m ≤ xs.foldl (fun a y => if a < y then y else a) m ∧
    ∀ y ∈ xs, y ≤ xs.foldl (fun a y => if a < y then y else a) m := by
  induction xs with
  | nil => exact fun m => ⟨Or.inl rfl, le_refl m, by simp⟩
  | cons y ys ih =>
    intro m
    rw [List.foldl_cons]
    obtain ⟨h1, h2, h3⟩ := ih (if m < y then y else m)
    have hm : m ≤ if m < y then y else m := by
      by_cases hc : m < y
      · rw [if_pos hc]; exact le_of_lt hc
      · rw [if_neg hc]
    have hy : y ≤ if m < y then y else m := by
      by_cases hc : m < y
      · rw [if_pos hc]
      · rw [if_neg hc]; exact le_of_not_lt hc
    refine ⟨?_, le_trans hm h2, ?_⟩
    · rcases h1 with h1 | h1
      · by_cases hc : m < y
        · rw [h1, if_pos hc]; exact Or.inr (List.mem_cons_self y ys)
        · rw [h1, if_neg hc]; exact Or.inl rfl
      · exact Or.inr (List.mem_cons_of_mem y h1)
    · intro z hz
      rcases List.mem_cons.mp hz with h4 | h4
      · rw [h4]; exact le_trans hy h2
      · exact h3 z h4

/-- C3: on a nonempty probability list, `_predict` returns the sentinel -1
when the maximum is at most 9/10, and the position of the maximum when the
maximum strictly exceeds 9/10; on ties the lowest index wins. -/
theorem predict_threshold_argmax (results : List ℚ) (h : results ≠ []) :
    ∃ m, pymax results = some m ∧ m ∈ results ∧ (∀ x ∈ results, x ≤ m) ∧
      (m ≤ 9 / 10 → predict results = some (-1)) ∧
      (9 / 10 < m → ∃ i : Fin results.length,
        predict results = some ((i : Nat) : Int) ∧ results.get i = m ∧
        ∀ j : Fin results.length, (j : Nat) < (i : Nat) → results.get j < m) := by
  cases results with
  | nil => exact absurd rfl h
  | cons x xs =>
    obtain ⟨h1, h2, h3⟩ := pymax_foldl_spec xs x
    set m := xs.foldl (fun a y => if a < y then y else a) x with hm
    have hmax : pymax (x :: xs) = some m := rfl
    have hmem : m ∈ x :: xs := by
      rcases h1 with h1 | h1
      · exact h1 ▸ List.mem_cons_self x xs
      · exact List.mem_cons_of_mem x h1
    have hub : ∀ z ∈ x :: xs, z ≤ m := by
      intro z hz
      rcases List.mem_cons.mp hz with h4 | h4
      · exact h4 ▸ h2
      · exact h3 z h4
    have hidx : pyIndex (x :: xs) m < (x :: xs).length := pyIndex_lt_length hmem
    have hget : (x :: xs).get ⟨pyIndex (x :: xs) m, hidx⟩ = m := get_pyIndex hmem
    have hsome : (x :: xs)[pyIndex (x :: xs) m]? = some m := by
      rw [List.getElem?_eq_getElem hidx]
      exact congrArg some hget
    refine ⟨m, hmax, hmem, hub, ?_, ?_⟩
    · intro hle
      simp only [predict, hmax, hsome]
      rw [if_neg (not_lt.mpr hle)]
    · intro hgt
      refine ⟨⟨pyIndex (x :: xs) m, hidx⟩, ?_, hget, ?_⟩
      · simp only [predict, hmax, hsome]
        rw [if_pos hgt]
        rfl
      · intro j hj
        have hne : (x :: xs).get j ≠ m := get_lt_pyIndex j.isLt hj
        exact lt_of_le_of_ne (hub _ (List.get_mem _ _ j.isLt)) hne

/-- Witness for `predict_threshold_argmax` on a concrete distribution. -/
theorem predict_threshold_argmax_witness :
    ∃ m, pymax [(1 : ℚ) / 2, 19 / 20] = some m ∧ m ∈ [(1 : ℚ) / 2, 19 / 20] ∧
      (∀ x ∈ [(1 : ℚ) / 2, 19 / 20], x ≤ m) ∧
      (m ≤ 9 / 10 → predict [(1 : ℚ) / 2, 19 / 20] = some (-1)) ∧
      (9 / 10 < m → ∃ i : Fin ([(1 : ℚ) / 2, 19 / 20]).length,
        predict [(1 : ℚ) / 2, 19 / 20] = some ((i : Nat) : Int) ∧
        [(1 : ℚ) / 2, 19 / 20].get i = m ∧
        ∀ j : Fin ([(1 : ℚ) / 2, 19 / 20]).length,
          (j : Nat) < (i : Nat) → [(1 : ℚ) / 2, 19 / 20].get j < m) :=
  predict_threshold_argmax [(1 : ℚ) / 2, 19 / 20] (List.cons_ne_nil _ _)

/-! ### Claim C7: sentence encoding -/

/-- C7: the encoded sentence has one boolean per global stem, position `i`
holds exactly when global stem `i` occurs among the sentence's stemmed
tokens, and the encoding only depends on the stemmed tokens that belong to
the vocabulary (unknown stems contribute nothing). -/
theorem convert_sentence_encoding (stemf : String → String) (stop : List String)
    (st : PState) (sentence : String) :
    (convert_sentence stemf stop st sentence).length = st.stems.length ∧
    (∀ i : Nat, (convert_sentence stemf stop st sentence)[i]? =
      (st.stems[i]?).map (fun w => decide (w ∈ stemming stemf stop sentence))) ∧
    convert_sentence stemf stop st sentence =
      st.stems.map (fun w =>
        decide (w ∈ (stemming stemf stop sentence).filter
          (fun u => decide (u ∈ st.stems)))) := by
  refine ⟨List.length_map _ _, ?_, ?_⟩
  · intro i
    rw [convert_sentence, List.getElem?_map]
  · rw [convert_sentence]
    apply List.map_congr_left
    intro w hw
    have hiff : w ∈ stemming stemf stop sentence ↔
        w ∈ (stemming stemf stop sentence).filter (fun u => decide (u ∈ st.stems)) := by
      rw [List.mem_filter]
      simp [hw]
    exact decide_eq_decide.mpr hiff

/-! ### Claim C5 (corrected): ingestion failure conditions -/

theorem set_intent_ok_fields {stemf : String → String} {stop : List String}
    {st st1 : PState} {r : IntentRecord}
    (h : set_intent stemf stop st r = (st1, none)) :
    r.tag ≠ none ∧ r.responses ≠ none := by
  rw [set_intent] at h
  cases htag : r.tag with
  | none => rw [htag] at h; cases h
  | some tag =>
    rw [htag] at h
    cases hresp : r.responses with
    | none => rw [hresp] at h; cases h
    | some answers => exact ⟨by simp [htag], by simp [hresp]⟩

/-- C5 counterexample: a catalog that never defines `noanswer` ingests with
no error at all, and a catalog whose second record lacks `responses` fails
only after committing the first record and the second record's tag
registration (partial state survives the abort). -/
theorem parse_intents_cex :
    (parse_intents id [] emptyState
        [⟨some "greet", some ["hi"], some ["hello"], none⟩]).2 = none ∧
    ¬ "noanswer" ∈ (parse_intents id [] emptyState
        [⟨some "greet", some ["hi"], some ["hello"], none⟩]).1.tags.map Prod.fst ∧
    (parse_intents id [] emptyState
        [⟨some "greet", some ["hi"], some ["hello"], none⟩,
         ⟨some "bad", some ["x"], none, none⟩]).2 =
      some (PyErr.keyError "responses") ∧
    (parse_intents id [] emptyState
        [⟨some "greet", some ["hi"], some ["hello"], none⟩,
         ⟨some "bad", some ["x"], none, none⟩]).1.tags.map Prod.fst =
      ["greet", "bad"] := by
  decide

/-- C5 amended: ingestion raises a `KeyError` whenever some non-empty
record lacks its `tag` or its `responses` field (the `noanswer` presence is
not checked, and state built before the failure is kept). -/
theorem parse_intents_missing_field_fails (stemf : String → String)
    (stop : List String) (st : PState) (cat : List IntentRecord)
    (h : ∃ r ∈ cat, isEmptyDict r = false ∧ (r.tag = none ∨ r.responses = none)) :
    (parse_intents stemf stop st cat).2.isSome := by
  induction cat generalizing st with
  | nil =>
    rcases h with ⟨r, hr, _⟩
    cases hr
  | cons r rs ih =>
    rcases h with ⟨r0, hr0, he, hf⟩
    rw [parse_intents]
    by_cases hemp : isEmptyDict r
    · rw [if_pos hemp]
      refine ih st ⟨r0, ?_, he, hf⟩
      rcases List.mem_cons.mp hr0 with h1 | h1
      · rw [h1] at he; rw [he] at hemp; cases hemp
      · exact h1
    · rw [if_neg hemp]
      cases hset : set_intent stemf stop st r with
      | mk st1 e =>
        cases e with
        | none =>
          simp only [hset]
          rcases List.mem_cons.mp hr0 with h1 | h1
          · obtain ⟨ht, hr⟩ := set_intent_ok_fields (h1 ▸ hset)
            rcases hf with hf | hf
            · exact absurd hf ht
            · exact absurd hf hr
          · exact ih st1 ⟨r0, h1, he, hf⟩
        | some err => simp [hset]

/-- Witness for `parse_intents_missing_field_fails` at a concrete
catalog. -/
theorem parse_intents_missing_field_fails_witness :
    (parse_intents id [] emptyState
        [⟨none, some [], some ["x"], none⟩]).2.isSome :=
  parse_intents_missing_field_fails id [] emptyState
    [⟨none, some [], some ["x"], none⟩]
    ⟨⟨none, some [], some ["x"], none⟩, by decide, by decide, Or.inl rfl⟩

/-! ### Claim C2 (corrected): shape of the training data -/

theorem count_true_set_replicate :
    ∀ (n i : Nat), i < n →
      ((List.replicate n false).set i true).count true = 1 := by
  intro n
  induction n with
  | zero => intro i hi; cases hi
  | succ k ih =>
    intro i hi
    cases i with
    | zero =>
      simp [List.replicate_succ, List.count_cons, List.count_replicate]
    | succ j =>
      rw [List.replicate_succ, List.set_cons_succ, List.count_cons]
      simp [ih j (by omega)]

theorem set_replicate_eq_onehot {n i : Nat} (_h : i < n) :
    (List.replicate n false).set i true = onehot n i := by
  apply List.ext_getElem
  · simp [onehot]
  · intro j h1 h2
    have hj : j < n := by simpa using h1
    rw [List.getElem_set]
    simp only [onehot, List.getElem_map, List.getElem_range]
    by_cases hc : i = j
    · simp [hc]
    · have hji : ¬ j = i := fun hh => hc hh.symm
      simp [hc, hji, List.getElem_replicate]

theorem onehot_length (n i : Nat) : (onehot n i).length = n := by
  simp [onehot]

theorem onehot_count {n i : Nat} (h : i < n) : (onehot n i).count true = 1 := by
  rw [← set_replicate_eq_onehot h]
  exact count_true_set_replicate n i h

theorem lookupTag_mem : ∀ {l : List (String × TagData)} {tag : String}
    {td : TagData}, lookupTag l tag = some td → (tag, td) ∈ l := by
  intro l
  induction l with
  | nil => intro tag td h; cases h
  | cons p ps ih =>
    intro tag td h
    cases p with
    | mk a b =>
      rw [lookupTag] at h
      by_cases hp : a = tag
      · rw [if_pos hp] at h
        cases h
        cases hp
        exact List.mem_cons_self _ _
      · rw [if_neg hp] at h
        exact List.mem_cons_of_mem _ (ih h)

theorem lookupTag_isSome_of_mem_keys :
    ∀ {l : List (String × TagData)} {tag : String},
      tag ∈ l.map Prod.fst → ∃ td, lookupTag l tag = some td := by
  intro l
  induction l with
  | nil => intro tag h; cases h
  | cons p ps ih =>
    intro tag h
    by_cases hp : p.1 = tag
    · exact ⟨p.2, by rw [lookupTag, if_pos hp]⟩
    · rw [List.map_cons] at h
      rcases List.mem_cons.mp h with h1 | h1
      · exact absurd h1.symm hp
      · obtain ⟨td, htd⟩ := ih h1
        exact ⟨td, by rw [lookupTag, if_neg hp, htd]⟩

theorem mem_getTags {st : PState} {tag : String} :
    tag ∈ getTags st ↔ tag ∈ st.tags.map Prod.fst :=
  (List.perm_insertionSort SLe _).mem_iff

/-- C2 counterexample: for the (legal) vocabulary holding only the
`noanswer` tag with no patterns, the expected example count is 0 but
`_make_training_data` fails (numpy raises `IndexError` on `[:,0]` over an
empty array) instead of returning two empty lists. -/
theorem make_training_data_empty_cex :
    make_training_data id ⟨[("noanswer", ⟨[], ["pardon"]⟩)], []⟩ = none ∧
    ((getTags ⟨[("noanswer", ⟨[], ["pardon"]⟩)], []⟩).map
      (fun tag => (getStems ⟨[("noanswer", ⟨[], ["pardon"]⟩)], []⟩ tag).length)).sum
      = 0 := by
  decide

/-- C2 amended: whenever at least one training row exists,
`_make_training_data` returns a permutation of the per-tag-per-stem rows
split into features and labels: exactly `Σ over tags |tag.stems|` examples,
every feature vector one-hot of length `|stems|` at the stem's global
position, every label vector one-hot of length `|tags|` at the tag's
position (with zero rows the numpy split fails instead). -/
theorem make_training_data_spec
    (shuffle : List (List Bool × List Bool) → List (List Bool × List Bool))
    (st : PState)
    (hperm : (shuffle (make_rows st)).Perm (make_rows st))
    (hsub : ∀ p ∈ st.tags, ∀ w ∈ p.2.stems, w ∈ st.stems)
    (hne : make_rows st ≠ []) :
    ∃ rows : List (List Bool × List Bool),
      make_training_data shuffle st = some (rows.map Prod.fst, rows.map Prod.snd) ∧
      rows.Perm (make_rows st) ∧
      rows.length =
        ((getTags st).map (fun tag => (getStems st tag).length)).sum ∧
      ∀ row ∈ make_rows st, ∃ tag ∈ getTags st, ∃ stem ∈ getStems st tag,
        row.1 = onehot st.stems.length (pyIndex st.stems stem) ∧
        pyIndex st.stems stem < st.stems.length ∧
        row.1.length = st.stems.length ∧ row.1.count true = 1 ∧
        row.2 = onehot (getTags st).length (pyIndex (getTags st) tag) ∧
        pyIndex (getTags st) tag < (getTags st).length ∧
        row.2.length = (getTags st).length ∧ row.2.count true = 1 := by
  have hsne : shuffle (make_rows st) ≠ [] := by
    intro hc
    have h2 := hperm.length_eq
    rw [hc] at h2
    exact hne (List.length_eq_zero.mp h2.symm)
  refine ⟨shuffle (make_rows st), ?_, hperm, ?_, ?_⟩
  · rw [make_training_data, if_neg hsne]
  · rw [hperm.length_eq, make_rows, List.length_flatMap]
    exact congrArg List.sum (List.map_congr_left (fun tag _ => by simp))
  · intro row hrow
    rw [make_rows] at hrow
    rcases List.mem_flatMap.mp hrow with ⟨tag, htag, hrow2⟩
    rcases List.mem_map.mp hrow2 with ⟨stem, hstem, hrow3⟩
    have htagmem : tag ∈ st.tags.map Prod.fst := mem_getTags.mp htag
    obtain ⟨td, htd⟩ := lookupTag_isSome_of_mem_keys htagmem
    have hstems : getStems st tag = td.stems := by rw [getStems, htd]; rfl
    have hsmem : stem ∈ st.stems := by
      refine hsub (tag, td) (lookupTag_mem htd) stem ?_
      rw [← hstems]
      exact hstem
    have hlt1 : pyIndex st.stems stem < st.stems.length := pyIndex_lt_length hsmem
    have hlt2 : pyIndex (getTags st) tag < (getTags st).length := pyIndex_lt_length htag
    refine ⟨tag, htag, stem, hstem, ?_, hlt1, ?_, ?_, ?_, hlt2, ?_, ?_⟩ <;>
      rw [← hrow3]
    · exact set_replicate_eq_onehot hlt1
    · simp
    · exact count_true_set_replicate _ _ hlt1
    · exact set_replicate_eq_onehot hlt2
    · simp
    · exact count_true_set_replicate _ _ hlt2

/-- Witness for `make_training_data_spec` on a concrete finalized
vocabulary. -/
theorem make_training_data_spec_witness :
    (make_training_data id
      ⟨[("a", ⟨["x"], ["r"]⟩), ("noanswer", ⟨[], ["n"]⟩)], ["x"]⟩).isSome := by
  obtain ⟨rows, h1, _, _, _⟩ :=
    make_training_data_spec id
      ⟨[("a", ⟨["x"], ["r"]⟩), ("noanswer", ⟨[], ["n"]⟩)], ["x"]⟩
      (List.Perm.refl _) (by decide) (by decide)
  rw [h1]
  rfl

/-! ### Claim C1: the global stem list is the sorted deduplicated union of
the per-tag stem lists -/

/-- The ingestion invariant: a word is in the global stem list exactly when
some tag's stem list holds it. -/
def StemInv (st : PState) : Prop :=
  ∀ w, w ∈ st.stems ↔ ∃ p ∈ st.tags, w ∈ p.2.stems

theorem updateTag_keys (st : PState) (tag : String) (f : TagData → TagData) :
    (updateTag st tag f).tags.map Prod.fst = st.tags.map Prod.fst := by
  rw [updateTag, List.map_map]
  apply List.map_congr_left
  intro p _
  by_cases h : p.1 = tag <;> simp [h]

theorem exists_stems_updateTag_preserve (st : PState) (tag : String)
    (f : TagData → TagData) (hf : ∀ td, (f td).stems = td.stems) (x : String) :
    (∃ p ∈ (updateTag st tag f).tags, x ∈ p.2.stems) ↔
      ∃ p ∈ st.tags, x ∈ p.2.stems := by
  constructor
  · rintro ⟨p2, hp2, hx⟩
    rcases List.mem_map.mp hp2 with ⟨p, hp, hpe⟩
    refine ⟨p, hp, ?_⟩
    by_cases h : p.1 = tag
    · rw [← hpe] at hx
      simpa [h, hf] using hx
    · rw [← hpe] at hx
      simpa [h] using hx
  · rintro ⟨p, hp, hx⟩
    refine ⟨if p.1 = tag then (p.1, f p.2) else p,
      List.mem_map_of_mem _ hp, ?_⟩
    by_cases h : p.1 = tag
    · simpa [h, hf] using hx
    · simpa [h] using hx

theorem exists_stems_updateTag_append (st : PState) (tag w : String)
    (htag : tag ∈ st.tags.map Prod.fst) (x : String) :
    (∃ p ∈ (updateTag st tag (fun td => ⟨td.stems ++ [w], td.answers⟩)).tags,
        x ∈ p.2.stems) ↔
      ((∃ p ∈ st.tags, x ∈ p.2.stems) ∨ x = w) := by
  constructor
  · rintro ⟨p2, hp2, hx⟩
    rcases List.mem_map.mp hp2 with ⟨p, hp, hpe⟩
    by_cases h : p.1 = tag
    · rw [← hpe] at hx
      simp only [h, if_true, List.mem_append, List.mem_singleton] at hx
      rcases hx with hx | hx
      · exact Or.inl ⟨p, hp, hx⟩
      · exact Or.inr hx
    · rw [← hpe] at hx
      simp only [h, if_false] at hx
      exact Or.inl ⟨p, hp, hx⟩
  · rintro (⟨p, hp, hx⟩ | hx)
    · refine ⟨if p.1 = tag then (p.1, (⟨p.2.stems ++ [w], p.2.answers⟩ : TagData)) else p,
        ?_, ?_⟩
      · have := List.mem_map_of_mem
          (fun p => if p.1 = tag then (p.1, (⟨p.2.stems ++ [w], p.2.answers⟩ : TagData)) else p) hp
        simpa [updateTag] using this
      · by_cases h : p.1 = tag
        · simp only [h, if_true]
          exact List.mem_append_left _ hx
        · simpa [h] using hx
    · rcases List.mem_map.mp htag with ⟨p, hp, hpe⟩
      refine ⟨(p.1, (⟨p.2.stems ++ [w], p.2.answers⟩ : TagData)), ?_, ?_⟩
      · have := List.mem_map_of_mem
          (fun p => if p.1 = tag then (p.1, (⟨p.2.stems ++ [w], p.2.answers⟩ : TagData)) else p) hp
        simpa [updateTag, hpe] using this
      · simp [hx]

theorem exists_stems_of_getStems {st : PState} {tag w : String}
    (h : w ∈ getStems st tag) : ∃ p ∈ st.tags, w ∈ p.2.stems := by
  rw [getStems] at h
  cases hl : lookupTag st.tags tag with
  | none => rw [hl] at h; cases h
  | some td =>
    rw [hl] at h
    exact ⟨(tag, td), lookupTag_mem hl, h⟩

theorem add_stem_word_spec (st : PState) (tag w : String)
    (htag : tag ∈ st.tags.map Prod.fst) :
    (add_stem_word st tag w).tags.map Prod.fst = st.tags.map Prod.fst ∧
    (∀ x, x ∈ (add_stem_word st tag w).stems ↔ (x ∈ st.stems ∨ x = w)) ∧
    (∀ x, (∃ p ∈ (add_stem_word st tag w).tags, x ∈ p.2.stems) ↔
      ((∃ p ∈ st.tags, x ∈ p.2.stems) ∨ x = w)) := by
  rw [add_stem_word]
  by_cases h1 : w ∈ getStems st tag
  · rw [if_pos h1]
    rw [add_global_stem]
    by_cases h2 : w ∈ st.stems
    · rw [if_pos h2]
      refine ⟨rfl, ?_, ?_⟩
      · intro x
        constructor
        · exact Or.inl
        · rintro (hx | hx)
          · exact hx
          · exact hx ▸ h2
      · intro x
        constructor
        · exact Or.inl
        · rintro (hx | hx)
          · exact hx
          · exact hx ▸ exists_stems_of_getStems h1
    · rw [if_neg h2]
      refine ⟨rfl, ?_, ?_⟩
      · intro x
        simp [List.mem_append, List.mem_singleton]
      · intro x
        constructor
        · exact Or.inl
        · rintro (hx | hx)
          · exact hx
          · subst hx
            exact exists_stems_of_getStems h1
  · rw [if_neg h1]
    rw [add_global_stem]
    have hstems : (updateTag st tag
        (fun td => ⟨td.stems ++ [w], td.answers⟩)).stems = st.stems := rfl
    by_cases h2 : w ∈ st.stems
    · rw [hstems, if_pos h2]
      refine ⟨updateTag_keys st tag _, ?_, ?_⟩
      · intro x
        rw [hstems]
        constructor
        · exact Or.inl
        · rintro (hx | hx)
          · exact hx
          · exact hx ▸ h2
      · exact exists_stems_updateTag_append st tag w htag
    · rw [hstems, if_neg h2]
      refine ⟨updateTag_keys st tag (fun td => ⟨td.stems ++ [w], td.answers⟩), ?_, ?_⟩
      · intro x
        simp [List.mem_append, List.mem_singleton]
      · exact exists_stems_updateTag_append st tag w htag

theorem add_stem_word_inv {st : PState} {tag w : String}
    (htag : tag ∈ st.tags.map Prod.fst) (hinv : StemInv st) :
    StemInv (add_stem_word st tag w) ∧
    (add_stem_word st tag w).tags.map Prod.fst = st.tags.map Prod.fst := by
  obtain ⟨hkeys, hglob, htags⟩ := add_stem_word_spec st tag w htag
  refine ⟨?_, hkeys⟩
  intro x
  rw [hglob x, htags x, hinv x]

theorem foldl_add_stem_word_inv (ws : List String) :
    ∀ (st : PState) (tag : String), tag ∈ st.tags.map Prod.fst → StemInv st →
      StemInv (ws.foldl (fun s w => add_stem_word s tag w) st) ∧
      (ws.foldl (fun s w => add_stem_word s tag w) st).tags.map Prod.fst =
        st.tags.map Prod.fst := by
  induction ws with
  | nil => exact fun st tag _ hinv => ⟨hinv, rfl⟩
  | cons w ws ih =>
    intro st tag htag hinv
    rw [List.foldl_cons]
    obtain ⟨hinv2, hkeys2⟩ := add_stem_word_inv htag hinv
    obtain ⟨hinv3, hkeys3⟩ := ih (add_stem_word st tag w) tag (by rw [hkeys2]; exact htag) hinv2
    exact ⟨hinv3, by rw [hkeys3, hkeys2]⟩

theorem set_stems_inv {st : PState} {tag : String} (stems : List (List String))
    (htag : tag ∈ st.tags.map Prod.fst) (hinv : StemInv st) :
    StemInv (set_stems st tag stems) ∧
    (set_stems st tag stems).tags.map Prod.fst = st.tags.map Prod.fst := by
  rw [set_stems]
  induction stems generalizing st with
  | nil => exact ⟨hinv, rfl⟩
  | cons l ls ih =>
    rw [List.foldl_cons]
    obtain ⟨hinv2, hkeys2⟩ := foldl_add_stem_word_inv l st tag htag hinv
    obtain ⟨hinv3, hkeys3⟩ := ih (by rw [hkeys2]; exact htag) hinv2
    exact ⟨hinv3, by rw [hkeys3, hkeys2]⟩

theorem set_answers_inv {st : PState} {tag : String} (answers : List String)
    (hinv : StemInv st) : StemInv (set_answers st tag answers) := by
  intro x
  rw [set_answers]
  rw [exists_stems_updateTag_preserve st tag
    (fun td => ⟨td.stems, td.answers ++ answers⟩) (fun td => rfl) x]
  exact hinv x

theorem register_tag_inv {st : PState} (tag : String) (hinv : StemInv st) :
    StemInv { st with tags := st.tags ++ [(tag, ⟨[], []⟩)] } := by
  intro x
  rw [hinv x]
  constructor
  · rintro ⟨p, hp, hx⟩
    exact ⟨p, List.mem_append_left _ hp, hx⟩
  · rintro ⟨p, hp, hx⟩
    rcases List.mem_append.mp hp with h1 | h1
    · exact ⟨p, h1, hx⟩
    · rw [List.mem_singleton] at h1
      rw [h1] at hx
      cases hx

theorem set_intent_inv (stemf : String → String) (stop : List String)
    (st : PState) (r : IntentRecord) (hinv : StemInv st) :
    StemInv (set_intent stemf stop st r).1 := by
  rw [set_intent]
  cases r.tag with
  | none => exact hinv
  | some tag =>
    have hinv1 : StemInv (if tag ∈ getTags st then st
        else { st with tags := st.tags ++ [(tag, ⟨[], []⟩)] }) := by
      by_cases h : tag ∈ getTags st
      · rw [if_pos h]; exact hinv
      · rw [if_neg h]; exact register_tag_inv tag hinv
    have htag1 : tag ∈ (if tag ∈ getTags st then st
        else { st with tags := st.tags ++ [(tag, ⟨[], []⟩)] }).tags.map Prod.fst := by
      by_cases h : tag ∈ getTags st
      · rw [if_pos h]; exact mem_getTags.mp h
      · rw [if_neg h]; simp
    cases r.responses with
    | none => exact hinv1
    | some answers =>
      cases r.patterns with
      | none => exact set_answers_inv answers hinv1
      | some pats =>
        refine (set_stems_inv _ ?_ (set_answers_inv answers hinv1)).1
        rw [set_answers, updateTag_keys]
        exact htag1

theorem parse_intents_inv (stemf : String → String) (stop : List String)
    (cat : List IntentRecord) :
    ∀ st : PState, StemInv st → StemInv (parse_intents stemf stop st cat).1 := by
  induction cat with
  | nil => exact fun st hinv => hinv
  | cons r rs ih =>
    intro st hinv
    rw [parse_intents]
    by_cases hemp : isEmptyDict r
    · rw [if_pos hemp]
      exact ih st hinv
    · rw [if_neg hemp]
      cases hset : set_intent stemf stop st r with
      | mk st1 e =>
        have hinv1 : StemInv st1 := by
          have := set_intent_inv stemf stop st r hinv
          rw [hset] at this
          exact this
        cases e with
        | none => exact ih st1 hinv1
        | some err => exact hinv1

theorem emptyState_inv : StemInv emptyState := by
  intro w
  constructor
  · intro h; cases h
  · rintro ⟨p, hp, _⟩; cases hp

/-- C1: after a catalog is ingested from the fresh state and finalized, the
global stem list equals the sorted deduplicated union of the per-tag stem
lists of the finalized vocabulary, and it is sorted with no duplicates. -/
theorem convert_intents_global_stems (stemf : String → String)
    (stop : List String) (cat : List IntentRecord) :
    (sort_all_stems (parse_intents stemf stop emptyState cat).1).stems =
      pysorted ((sort_all_stems (parse_intents stemf stop emptyState cat).1).tags.flatMap
        (fun p => p.2.stems)) ∧
    List.Sorted SLe (sort_all_stems (parse_intents stemf stop emptyState cat).1).stems ∧
    (sort_all_stems (parse_intents stemf stop emptyState cat).1).stems.Nodup := by
  have hinv : StemInv (parse_intents stemf stop emptyState cat).1 :=
    parse_intents_inv stemf stop cat emptyState emptyState_inv
  refine ⟨?_, sorted_pysorted _, nodup_pysorted _⟩
  apply sorted_nodup_eq_of_mem_iff (sorted_pysorted _) (nodup_pysorted _)
    (sorted_pysorted _) (nodup_pysorted _)
  intro a
  rw [mem_pysorted, mem_pysorted]
  rw [hinv a]
  constructor
  · rintro ⟨p, hp, ha⟩
    rw [List.mem_flatMap]
    refine ⟨(p.1, ⟨pysorted p.2.stems, p.2.answers⟩), ?_, ?_⟩
    · rw [sort_all_stems]
      exact List.mem_map_of_mem _ hp
    · exact mem_pysorted.mpr ha
  · intro ha
    rcases List.mem_flatMap.mp ha with ⟨q, hq, ha2⟩
    rw [sort_all_stems] at hq
    rcases List.mem_map.mp hq with ⟨p, hp, hpe⟩
    refine ⟨p, hp, ?_⟩
    rw [← hpe] at ha2
    exact mem_pysorted.mp ha2

end Chatbot

section SmokeTests

/-! Concrete evaluations of the embedded operations, checking the
definitions against hand-computed runs of the Python code. -/

open Chatbot

example : tokenize "Hello World !" = ["Hello", "World"] := by decide
example : stemming id ["le"] "Le Bonjour" = ["le", "bonjour"] := by decide
example : pysorted ["b", "a", "b"] = ["a", "b"] := by decide
example :
    (parse_intents id []
      emptyState
      [⟨some "greet", some ["hi you"], some ["hello"], none⟩]).2 = none := by
  decide
example :
    (sort_all_stems (parse_intents id [] emptyState
      [⟨some "greet", some ["hi you", "you"], some ["hello"], none⟩]).1).stems
      = ["hi", "you"] := by decide
example :
    make_training_data id
      ⟨[("a", ⟨["x"], ["r"]⟩), ("noanswer", ⟨[], ["n"]⟩)], ["x"]⟩
      = some ([[true]], [[true, false]]) := by decide
example : predict [1/2, 19/20] = some 1 := by
  norm_num [predict, pymax, pyIndex]
example : predict [1/2, 9/10] = some (-1) := by
  norm_num [predict, pymax, pyIndex]
example :
    choose_answer ⟨[("noanswer", ⟨[], ["n1", "n2"]⟩)], []⟩ 3 (-5) = some "n2" := by
  decide

end SmokeTests
